import Mathlib

/-!
Verification development for the flumine example betting strategy
(`src/example_strategy.py`) and its historical file parser
(`src/historical_files_parser.py`).

The Python source is shallowly embedded below: Python floats become rationals
(`ℚ`), with a tagged type `PyFloat` where NaN is semantically relevant
(the probability vector); fallible lookups become `Option`; the side effects of
`process_market_book` (order placement / replacement) become an explicit list
of `Action` values; the strategy instance state (the probability cache) becomes
explicit state passing.
-/

namespace FlumineExample

/-- A Python float as it appears in the probability vector: either NaN or a
rational value.  Only the probability vector needs the NaN tag; everywhere
else prices and sizes are plain rationals. -/
inductive PyFloat where
  | nan : PyFloat
  | val : ℚ → PyFloat
deriving DecidableEq

/-- `math.isnan`. -/
def PyFloat.isnan : PyFloat → Bool
  | .nan => true
  | .val _ => false

/-- Python `x == 0` on a float (False for NaN). -/
def PyFloat.eqZero : PyFloat → Bool
  | .nan => false
  | .val q => q == 0

/-- Extract the rational value; the NaN arm is never reached in any execution
that passed the probability-validation loop of `process_market_book` (proved
below), and is given the junk value 0. -/
def PyFloat.toQ : PyFloat → ℚ
  | .nan => 0
  | .val q => q

/-- `flumine.order.order.OrderStatus` (only the distinctions the strategy
reads: it compares against `EXECUTABLE`). -/
inductive OrderStatus where
  | pending
  | executable
  | executionComplete
  | violation
deriving DecidableEq

/-- One order as seen by the strategy through `market.blotter`:
`order.side` (the strings `'BACK'` / `'LAY'`), `order.status`,
`order.order_type.price` and `order.size_matched`. -/
structure Order where
  side : String
  status : OrderStatus
  price : ℚ
  size_matched : ℚ
deriving DecidableEq

/-- `runner.ex`: price ladders available to back and to lay, best first
(modelled by the price of each level). -/
structure RunnerEx where
  available_to_back : List ℚ
  available_to_lay : List ℚ
deriving DecidableEq

/-- One runner of a market book snapshot.  `orders` models the result of
`market.blotter.strategy_selection_orders(self, selection_id, handicap)` for
this runner, and `trade_count` models
`self.get_runner_context(market_id, selection_id, handicap).trade_count`. -/
structure Runner where
  selection_id : ℕ
  handicap : ℚ
  status : String
  ex : RunnerEx
  orders : List Order
  trade_count : ℕ
deriving DecidableEq

/-- The market book snapshot fields `process_market_book` reads.
`number_of_active_runners` is a field of the feed, carried separately from
the runner list exactly as in the source. -/
structure MarketBookState where
  market_id : String
  number_of_active_runners : ℕ
  runners : List Runner
deriving DecidableEq

/-- The strategy configuration read from `self.context` in `add` and
`process_market_book`.  `staking_strategy` is the raw string of the source
(`'take'`, `'offer'` or `'bsp'`). -/
structure StrategyConfig where
  seconds_to_start : ℤ
  margin : ℚ
  min_back_price : ℚ
  max_back_price : ℚ
  min_lay_price : ℚ
  max_lay_price : ℚ
  stake : ℚ
  staking_strategy : String
deriving DecidableEq

/-- The externally visible commands `process_market_book` issues:
`market.place_order` with a `LimitOrder`, `market.place_order` with a
`LimitOnCloseOrder`, and `market.replace_order` (which flumine performs by
cancelling and re-placing at the new price with the size preserved). -/
inductive Action where
  | placeLimit (selection_id : ℕ) (side : String) (price : ℚ) (size : ℚ)
  | placeLimitOnClose (selection_id : ℕ) (side : String) (liability : ℚ) (price : ℚ)
  | replaceOrder (selection_id : ℕ) (order : Order) (new_price : ℚ)
deriving DecidableEq

/-- The outcome of one `process_market_book` call: an uncaught exception, an
early `return False`, or a normal run issuing the listed actions in order. -/
inductive ProcessResult where
  | error (msg : String)
  | failed
  | acted (actions : List Action)
deriving DecidableEq

/-- `flumine.utils.get_price(data, n)`: the price at depth `n` of a price
ladder, `None` when the ladder is too short. -/
def get_price (available : List ℚ) (position : ℕ) : Option ℚ :=
  match available, position with
  | [], _ => none
  | p :: _, 0 => some p
  | _ :: rest, n + 1 => get_price rest n

/-- Indexing `race_probability[idx]`, `None` out of range. -/
def nthProb : List PyFloat → ℕ → Option PyFloat
  | [], _ => none
  | p :: _, 0 => some p
  | _ :: rest, n + 1 => nthProb rest n

/-- The probability value handed to the pricing code for active-runner index
`idx`; the defaults are never reached after the validation loop. -/
def probAt (probs : List PyFloat) (idx : ℕ) : ℚ :=
  ((nthProb probs idx).getD PyFloat.nan).toQ

/-- Modelled from the spec: `flumine.utils.get_nearest_price`, the external
venue-defined rounding of a price to the exchange's discrete tick ladder.
The spec describes it as a pure map to the nearest member of a fixed monotonic
ladder whose exact table is venue data; modelled as clamping to the ladder
range and rounding to the tick increment of the price's band.  No claim
depends on its values. -/
def get_nearest_price (price : ℚ) : ℚ :=
  if price ≤ 101 / 100 then 101 / 100
  else if price ≥ 1000 then 1000
  else
    let inc : ℚ :=
      if price < 2 then 1 / 100
      else if price < 3 then 1 / 50
      else if price < 4 then 1 / 20
      else if price < 6 then 1 / 10
      else if price < 10 then 1 / 5
      else if price < 20 then 1 / 2
      else if price < 30 then 1
      else if price < 50 then 2
      else if price < 100 then 5
      else 10
    (round (price / inc) : ℚ) * inc

/-- Python `round(x, 2)`: round to 2 decimal places, ties to even. -/
def round2 (x : ℚ) : ℚ :=
  let y := x * 100
  let f := Int.floor y
  let frac := y - f
  let n : ℤ :=
    if frac < 1 / 2 then f
    else if 1 / 2 < frac then f + 1
    else if f % 2 = 0 then f else f + 1
  (n : ℚ) / 100

/-- `_get_back_price(self, runner_probability, lay_price, back_price)`.
For a staking-strategy string other than `'take'` / `'offer'` the source
leaves `price = None` and then crashes comparing a float with `None`; that
unreachable arm is modelled as `none`. -/
def get_back_price (cfg : StrategyConfig) (runner_probability : ℚ)
    (lay_price back_price : Option ℚ) : Option ℚ :=
  match lay_price, back_price with
  | some lp, some bp =>
    let price? : Option ℚ :=
      if cfg.staking_strategy = "take" then some bp
      else if cfg.staking_strategy = "offer" then some lp
      else none
    match price? with
    | none => none
    | some price =>
      let runner_price_ev := (1 / runner_probability) * (1 + cfg.margin)
      if runner_price_ev < price then none
      else if cfg.min_back_price > price then none
      else if cfg.max_back_price < price then none
      else some price
  | _, _ => none

/-- `_get_lay_price(self, runner_probability, lay_price, back_price)`. -/
def get_lay_price (cfg : StrategyConfig) (runner_probability : ℚ)
    (lay_price back_price : Option ℚ) : Option ℚ :=
  match lay_price, back_price with
  | some lp, some bp =>
    let price? : Option ℚ :=
      if cfg.staking_strategy = "take" then some lp
      else if cfg.staking_strategy = "offer" then some bp
      else none
    match price? with
    | none => none
    | some price =>
      let runner_price_ev := (1 / runner_probability) / (1 + cfg.margin)
      if runner_price_ev > price then none
      else if cfg.min_lay_price > price then none
      else if cfg.max_lay_price < price then none
      else some price
  | _, _ => none

/-- `_place_bsp_bets(self, market, runner, back_price, lay_price,
runner_probability, trade)`: the starting-price path, returning the orders it
places. -/
def place_bsp_bets (cfg : StrategyConfig) (r : Runner)
    (back_price lay_price : Option ℚ) (runner_probability : ℚ) : List Action :=
  if r.trade_count = 0 then []
  else
    match back_price, lay_price with
    | some bp, some lp =>
      let projected_bsp := (bp + lp) / 2
      let limit_back_price_tick :=
        get_nearest_price ((1 / runner_probability) * (1 + cfg.margin))
      let limit_lay_price_tick :=
        get_nearest_price ((1 / runner_probability) / (1 + cfg.margin))
      let liability0 := round2 ((projected_bsp - 1) * cfg.stake)
      let limit_lay_liability := if liability0 < 30 then (30 : ℚ) else liability0
      (if cfg.min_back_price ≤ limit_back_price_tick ∧
          limit_back_price_tick ≤ cfg.max_back_price then
        [Action.placeLimitOnClose r.selection_id "BACK" cfg.stake limit_back_price_tick]
      else []) ++
      (if cfg.min_lay_price ≤ limit_lay_price_tick ∧
          limit_lay_price_tick ≤ cfg.max_lay_price then
        [Action.placeLimitOnClose r.selection_id "LAY" limit_lay_liability limit_lay_price_tick]
      else [])
    | _, _ => []

/-- The body of the order loop of `process_market_book` for one resting
order: an executable back order is replaced when the fresh candidate is
strictly lower, an executable lay order when the fresh candidate is strictly
higher; otherwise nothing is issued for this order. -/
def replace_decision (cfg : StrategyConfig) (sel : ℕ)
    (runner_probability : ℚ) (lay_price back_price : Option ℚ)
    (o : Order) : Option Action :=
  if o.side = "BACK" ∧ o.status = OrderStatus.executable then
    match get_back_price cfg runner_probability lay_price back_price with
    | some pp => if pp < o.price then some (Action.replaceOrder sel o pp) else none
    | none => none
  else if o.side = "LAY" ∧ o.status = OrderStatus.executable then
    match get_lay_price cfg runner_probability lay_price back_price with
    | some pp => if pp > o.price then some (Action.replaceOrder sel o pp) else none
    | none => none
  else none

/-- The continuous (take/offer) body of the runner loop of
`process_market_book`: replacement pass over the runner's existing orders,
then placement of fresh back/lay limit orders when no order of that side
exists yet. -/
def process_runner_cont (cfg : StrategyConfig) (r : Runner)
    (runner_probability : ℚ) : List Action :=
  let back_price := get_price r.ex.available_to_back 0
  let lay_price := get_price r.ex.available_to_lay 0
  let has_back_bets := r.orders.any (fun o => o.side == "BACK")
  let has_lay_bets := r.orders.any (fun o => o.side == "LAY")
  let replaceActs := r.orders.filterMap
    (replace_decision cfg r.selection_id runner_probability lay_price back_price)
  let backPlace :=
    if has_back_bets then []
    else
      match get_back_price cfg runner_probability lay_price back_price with
      | some pp => [Action.placeLimit r.selection_id "BACK" pp cfg.stake]
      | none => []
  let layPlace :=
    if has_lay_bets then []
    else
      match get_lay_price cfg runner_probability lay_price back_price with
      | some pp => [Action.placeLimit r.selection_id "LAY" pp cfg.stake]
      | none => []
  replaceActs ++ backPlace ++ layPlace

/-- The probability-validation loop of `process_market_book` (lines 110-122):
walks the runners, skipping non-ACTIVE ones, checking
`race_probability[runner_idx]`.  An out-of-range access raises IndexError; an
invalid probability reaches the `logging.warning` f-string that references the
undefined name `race` and so raises NameError.  Returns the exception name, or
`none` when the loop completes. -/
def validate_runner_probs (probs : List PyFloat) :
    List Runner → ℕ → Option String
  | [], _ => none
  | r :: rest, idx =>
    if r.status ≠ "ACTIVE" then validate_runner_probs probs rest idx
    else
      match nthProb probs idx with
      | none => some "IndexError"
      | some p =>
        if p.isnan || p.eqZero then some "NameError"
        else validate_runner_probs probs rest (idx + 1)

/-- The main runner loop of `process_market_book` (lines 125-191): skips
non-ACTIVE runners; in `'bsp'` mode returns the starting-price placements for
the first active runner (the source has `return` inside the loop); otherwise
processes each active runner continuously and advances the probability
index. -/
def strategy_loop (cfg : StrategyConfig) (probs : List PyFloat) :
    List Runner → ℕ → List Action
  | [], _ => []
  | r :: rest, idx =>
    if r.status ≠ "ACTIVE" then strategy_loop cfg probs rest idx
    else if cfg.staking_strategy = "bsp" then
      place_bsp_bets cfg r (get_price r.ex.available_to_back 0)
        (get_price r.ex.available_to_lay 0) (probAt probs idx)
    else
      process_runner_cont cfg r (probAt probs idx) ++
        strategy_loop cfg probs rest (idx + 1)

/-- `process_market_book(self, market, market_book)`, with the probability
vector for the market (the value of `self._generate_probabilities`) passed
explicitly. -/
def process_market_book (cfg : StrategyConfig) (mb : MarketBookState)
    (race_probability : List PyFloat) : ProcessResult :=
  if race_probability.length ≠ mb.number_of_active_runners then .failed
  else
    match validate_runner_probs race_probability mb.runners 0 with
    | some msg => .error msg
    | none => .acted (strategy_loop cfg race_probability mb.runners 0)

/-- The runners of a snapshot with status `'ACTIVE'`, in snapshot order. -/
def active_runners (rs : List Runner) : List Runner :=
  rs.filter (fun r => r.status == "ACTIVE")

/-- `market_book.market_definition.market_base_rate` as the settlement code
sees it: `None` (absent or null), the empty string, or a number.  The source
tests membership in the tuple `(None, 0, '')`. -/
inductive BaseRate where
  | absent
  | emptyStr
  | num (q : ℚ)
deriving DecidableEq

/-- The settlement ledger computed by `process_closed_market`:
`market_pnl_before_commission` is the value of `market_pnl` at line 219, and
`market_pnl` its final (logged) value after the commission deduction. -/
structure SettlementLedger where
  market_back_pnl : ℚ
  market_lay_pnl : ℚ
  market_pnl_before_commission : ℚ
  market_commission : ℚ
  market_pnl : ℚ
deriving DecidableEq

/-- The inner order loop of `process_closed_market` for one runner:
accumulates the back and lay PnL exactly as the source's four guarded
updates do. -/
def order_contribs (status : String) :
    List Order → ℚ → ℚ → ℚ × ℚ
  | [], back, lay => (back, lay)
  | o :: rest, back, lay =>
    let back1 :=
      if status = "WINNER" ∧ o.side = "BACK" then back + o.size_matched * (o.price - 1)
      else if status = "LOSER" ∧ o.side = "BACK" then back - o.size_matched
      else back
    let lay1 :=
      if status = "WINNER" ∧ o.side = "LAY" then lay - o.size_matched * (o.price - 1)
      else if status = "LOSER" ∧ o.side = "LAY" then lay + o.size_matched
      else lay
    order_contribs status rest back1 lay1

/-- The outer runner loop of `process_closed_market`. -/
def runners_pnl : List Runner → ℚ → ℚ → ℚ × ℚ
  | [], back, lay => (back, lay)
  | r :: rest, back, lay =>
    let p := order_contribs r.status r.orders back lay
    runners_pnl rest p.1 p.2

/-- The commission block of `process_closed_market` (lines 221-228), as a
function of the accumulated `market_pnl` and the market's declared base rate;
returns `(market_commission, market_pnl)` as finally logged. -/
def commission_step (market_pnl : ℚ) (market_base_rate : BaseRate) : ℚ × ℚ :=
  if market_pnl > 0 then
    let rate : ℚ :=
      match market_base_rate with
      | .absent => 5
      | .emptyStr => 5
      | .num q => if q = 0 then 5 else q
    let c := market_pnl * rate / 100
    (c, market_pnl - c)
  else (0, market_pnl)

/-- `process_closed_market(self, market, market_book)`, with the runner list
(each runner carrying its blotter orders) and the declared base rate as
inputs. -/
def process_closed_market (runners : List Runner)
    (market_base_rate : BaseRate) : SettlementLedger :=
  let bl := runners_pnl runners 0 0
  let total := bl.1 + bl.2
  let cn := commission_step total market_base_rate
  { market_back_pnl := bl.1
    market_lay_pnl := bl.2
    market_pnl_before_commission := total
    market_commission := cn.1
    market_pnl := cn.2 }

/-- `_generate_probabilities(self, market, market_book)`.  The strategy state
`self.market_probabilities` is passed and returned explicitly; the raw uniform
draws of `np.random.default_rng().uniform(0, 1, n)` are an input (`draws`),
normalised by their sum as in the source.  Numpy's `0/0` (all draws zero)
yields NaN. -/
def generate_probabilities
    (market_probabilities : List (String × List PyFloat))
    (market_id : String) (draws : List ℚ) :
    List PyFloat × List (String × List PyFloat) :=
  match market_probabilities.lookup market_id with
  | some v => (v, market_probabilities)
  | none =>
    let s := draws.sum
    let probs := draws.map (fun d =>
      if s = 0 then PyFloat.nan else PyFloat.val (d / s))
    (probs, (market_id, probs) :: market_probabilities)

/-- Whether `pat` is a leading run of `s` (character lists). -/
def charsStartWith : List Char → List Char → Bool
  | [], _ => true
  | _ :: _, [] => false
  | p :: ps, c :: cs => p == c && charsStartWith ps cs

/-- Whether `pat` occurs as a contiguous run somewhere in `s`. -/
def charsContain (pat : List Char) : List Char → Bool
  | [] => charsStartWith pat []
  | c :: cs => charsStartWith pat (c :: cs) || charsContain pat cs

/-- Python's `pat in s` substring test. -/
def strContains (s pat : String) : Bool :=
  charsContain pat.data s.data

/-- `market_definition[k]` on the parsed JSON header, values modelled as
strings.  A missing key raises KeyError in the source; modelled by the empty
string (no claim involves a missing key). -/
def mdGet (market_definition : List (String × String)) (k : String) : String :=
  (market_definition.lookup k).getD ""

/-- `_filter_market_file(market_file, market_definition_filters)` of
`historical_files_parser.py`, with the file's parsed market-definition header
as input (the file read is I/O plumbing).  Returns `true` when the file is to
be excluded. -/
def filter_market_file (market_definition : List (String × String))
    (market_definition_filters : List (String × String)) : Bool :=
  if market_definition_filters.isEmpty then false
  else if strContains (mdGet market_definition "name") "Trot" ||
      strContains (mdGet market_definition "name") "Pace" then true
  else market_definition_filters.any
    (fun kv => !(mdGet market_definition kv.1 == kv.2))

/-! ## Spec-side definitions

These follow the wording of the specification (not the source) and exist only
to be compared with the source-translated definitions above. -/

/-- Spec wording of the per-order back-PnL contribution at settlement. -/
def spec_back_contrib (status : String) (o : Order) : ℚ :=
  if status = "WINNER" ∧ o.side = "BACK" then o.size_matched * (o.price - 1)
  else if status = "LOSER" ∧ o.side = "BACK" then -o.size_matched
  else 0

/-- Spec wording of the per-order lay-PnL contribution at settlement. -/
def spec_lay_contrib (status : String) (o : Order) : ℚ :=
  if status = "WINNER" ∧ o.side = "LAY" then -(o.size_matched * (o.price - 1))
  else if status = "LOSER" ∧ o.side = "LAY" then o.size_matched
  else 0

/-- The commission exactly as the claim words it: the declared base rate is
replaced by 5 only when absent, null, or empty (a declared rate of 0 is
used as 0). -/
def spec_commission_claim (pnl : ℚ) (br : BaseRate) : ℚ :=
  if pnl > 0 then
    pnl * (match br with | .absent => 5 | .emptyStr => 5 | .num q => q) / 100
  else 0

/-- The commission as the claim must be amended: the base rate is also
replaced by 5 when it is declared as 0 (the source tests membership in
`(None, 0, '')`). -/
def spec_commission_amended (pnl : ℚ) (br : BaseRate) : ℚ :=
  if pnl > 0 then
    pnl * (match br with
           | .absent => 5
           | .emptyStr => 5
           | .num q => if q = 0 then 5 else q) / 100
  else 0

/-- The bounds invariant the spec states for the continuous path: every
placed limit price and every replacement price respects the per-side
configured bounds; limit-on-close placements belong to the starting-price
path and are not constrained by this invariant. -/
def action_within_bounds (cfg : StrategyConfig) : Action → Prop
  | Action.placeLimit _ side price _ =>
      (side = "BACK" → cfg.min_back_price ≤ price ∧ price ≤ cfg.max_back_price) ∧
      (side = "LAY" → cfg.min_lay_price ≤ price ∧ price ≤ cfg.max_lay_price)
  | Action.replaceOrder _ o np =>
      (o.side = "BACK" → cfg.min_back_price ≤ np ∧ np ≤ cfg.max_back_price) ∧
      (o.side = "LAY" → cfg.min_lay_price ≤ np ∧ np ≤ cfg.max_lay_price)
  | Action.placeLimitOnClose _ _ _ _ => True

/-! ## Example fixtures

Concrete values used by the witness theorems: the spec's default
configuration under each staking strategy, and a small two-runner market. -/

/-- The default configuration with staking strategy `'take'`. -/
def exCfgTake : StrategyConfig :=
  { seconds_to_start := 60, margin := 1 / 10, min_back_price := 1,
    max_back_price := 150, min_lay_price := 1, max_lay_price := 150,
    stake := 10, staking_strategy := "take" }

/-- The default configuration with staking strategy `'offer'`. -/
def exCfgOffer : StrategyConfig := { exCfgTake with staking_strategy := "offer" }

/-- The default configuration with staking strategy `'bsp'`. -/
def exCfgBsp : StrategyConfig := { exCfgTake with staking_strategy := "bsp" }

/-- An active runner with one trade recorded, no resting orders, best back 2
and best lay 2.1. -/
def exRunner : Runner :=
  { selection_id := 101, handicap := 0, status := "ACTIVE",
    ex := { available_to_back := [2], available_to_lay := [21 / 10] },
    orders := [], trade_count := 1 }

/-- An active runner with zero trades recorded. -/
def exRunnerZero : Runner :=
  { exRunner with selection_id := 102, trade_count := 0 }

/-- A two-active-runner market book. -/
def exMarketBook : MarketBookState :=
  { market_id := "1.23", number_of_active_runners := 2,
    runners := [exRunner, exRunnerZero] }

/-! ## Claims -/

/-- C2: in the starting-price (`'bsp'`) path, a runner whose recorded
`RunnerContext.trade_count` equals zero receives no order on this update:
`_place_bsp_bets` returns before computing the projected starting price or
any limit price. -/
theorem claim2_bsp_zero_trade_gate (cfg : StrategyConfig) (r : Runner)
    (back_price lay_price : Option ℚ) (runner_probability : ℚ)
    (h0 : r.trade_count = 0) :
    place_bsp_bets cfg r back_price lay_price runner_probability = [] := by
  simp [place_bsp_bets, h0]

/-- Witness for C2 at a concrete runner with zero trades. -/
theorem claim2_witness :
    place_bsp_bets exCfgBsp exRunnerZero (some 2) (some (21 / 10)) (1 / 2) = [] :=
  claim2_bsp_zero_trade_gate exCfgBsp exRunnerZero _ _ _ rfl

/-- C8: the probability model's get-or-create operation is idempotent per
market id: a second call with the same id (and arbitrary fresh draws, of any
length) returns the identical vector and leaves the stored state
unchanged. -/
theorem claim8_probability_cache_idempotent
    (cache : List (String × List PyFloat)) (market_id : String)
    (d1 d2 : List ℚ) :
    (generate_probabilities
        (generate_probabilities cache market_id d1).2 market_id d2).1 =
      (generate_probabilities cache market_id d1).1 ∧
    (generate_probabilities
        (generate_probabilities cache market_id d1).2 market_id d2).2 =
      (generate_probabilities cache market_id d1).2 := by
  cases h : cache.lookup market_id with
  | some v => simp [generate_probabilities, h]
  | none => simp [generate_probabilities, h, List.lookup]

/-- The commission block agrees everywhere with the amended spec formula. -/
theorem commission_step_eq_amended (pnl : ℚ) (br : BaseRate) :
    commission_step pnl br =
      (spec_commission_amended pnl br, pnl - spec_commission_amended pnl br) := by
  unfold commission_step spec_commission_amended
  cases br <;> split_ifs <;> simp

/-- C4 counterexample: with total PnL 100 and a declared base rate of 0 (a
present, non-null, non-empty value) the source charges commission 5 (it
replaces the declared 0 by the default 5), while the claim's formula yields
commission 0. -/
theorem claim4_counterexample :
    (commission_step 100 (BaseRate.num 0)).1 = 5 ∧
    spec_commission_claim 100 (BaseRate.num 0) = 0 := by
  constructor <;> norm_num [commission_step, spec_commission_claim]

/-- C4 (amended): at market close, if total PnL > 0 then commission =
totalPnL * baseRate / 100, with the declared base rate replaced by 5 when it
is absent, null, empty, or zero, and net PnL = total PnL - commission; if
total PnL <= 0 then commission = 0 and net PnL = total PnL. -/
theorem claim4_commission_amended (pnl : ℚ) (br : BaseRate)
    (runners : List Runner) :
    commission_step pnl br =
      (spec_commission_amended pnl br, pnl - spec_commission_amended pnl br) ∧
    (process_closed_market runners br).market_commission =
      spec_commission_amended
        (process_closed_market runners br).market_pnl_before_commission br ∧
    (process_closed_market runners br).market_pnl =
      (process_closed_market runners br).market_pnl_before_commission -
        (process_closed_market runners br).market_commission := by
  refine ⟨commission_step_eq_amended pnl br, ?_, ?_⟩ <;>
    simp [process_closed_market, commission_step_eq_amended]

/-- C3 counterexample: with the empty filter mapping, a market whose
definition name contains "Trot" is not excluded (the source skips the whole
filter body when the mapping is empty). -/
theorem claim3_counterexample :
    filter_market_file [("name", "Trot Race")] [] = false ∧
    strContains "Trot Race" "Trot" = true := by
  constructor <;> rfl

/-- C3 (amended): for every non-empty market-definition filter mapping, a
market file whose definition name contains "Trot" or "Pace" is excluded,
regardless of the other filter keys. -/
theorem claim3_trot_pace_excluded (md filters : List (String × String))
    (hne : filters ≠ [])
    (hname : strContains (mdGet md "name") "Trot" = true ∨
      strContains (mdGet md "name") "Pace" = true) :
    filter_market_file md filters = true := by
  unfold filter_market_file
  have h1 : filters.isEmpty = false := by
    cases filters with
    | nil => exact absurd rfl hne
    | cons a l => rfl
  rw [h1]
  rcases hname with h | h <;> simp [h]

/-- Witness for C3's amended statement at a concrete "Trot" market and a
concrete non-empty filter mapping. -/
theorem claim3_witness :
    filter_market_file [("name", "Trot Race")] [("bettingType", "ODDS")] = true :=
  claim3_trot_pace_excluded _ _ (by decide) (Or.inl (by decide))

/-- The inner settlement loop accumulates exactly the spec's per-order
contributions. -/
theorem order_contribs_eq (status : String) (orders : List Order)
    (back lay : ℚ) :
    order_contribs status orders back lay =
      (back + (orders.map (spec_back_contrib status)).sum,
       lay + (orders.map (spec_lay_contrib status)).sum) := by
  induction orders generalizing back lay with
  | nil => simp [order_contribs]
  | cons o rest ih =>
    simp only [order_contribs, List.map_cons, List.sum_cons]
    rw [ih]
    have hb : (if status = "WINNER" ∧ o.side = "BACK" then
          back + o.size_matched * (o.price - 1)
        else if status = "LOSER" ∧ o.side = "BACK" then back - o.size_matched
        else back) = back + spec_back_contrib status o := by
      unfold spec_back_contrib
      split_ifs <;> ring
    have hl : (if status = "WINNER" ∧ o.side = "LAY" then
          lay - o.size_matched * (o.price - 1)
        else if status = "LOSER" ∧ o.side = "LAY" then lay + o.size_matched
        else lay) = lay + spec_lay_contrib status o := by
      unfold spec_lay_contrib
      split_ifs <;> ring
    rw [hb, hl]
    simp only [Prod.mk.injEq]
    constructor <;> ring

/-- The outer settlement loop accumulates the spec's per-runner sums. -/
theorem runners_pnl_eq (rs : List Runner) (back lay : ℚ) :
    runners_pnl rs back lay =
      (back + (rs.map (fun r => (r.orders.map (spec_back_contrib r.status)).sum)).sum,
       lay + (rs.map (fun r => (r.orders.map (spec_lay_contrib r.status)).sum)).sum) := by
  induction rs generalizing back lay with
  | nil => simp [runners_pnl]
  | cons r rest ih =>
    simp only [runners_pnl, order_contribs_eq, List.map_cons, List.sum_cons]
    rw [ih]
    simp only [Prod.mk.injEq]
    constructor <;> ring

/-- C6: at market close, the back PnL is the sum over every runner and every
order of the spec's back contribution (winner back orders give
matchedSize*(price-1), loser back orders give -matchedSize, all other
statuses give 0), the lay PnL is the corresponding lay sum (winner lay orders
give -matchedSize*(price-1), loser lay orders give +matchedSize), and the
total PnL equals back PnL plus lay PnL. -/
theorem claim6_settlement_contributions (runners : List Runner)
    (br : BaseRate) :
    (process_closed_market runners br).market_back_pnl =
      (runners.map (fun r => (r.orders.map (spec_back_contrib r.status)).sum)).sum ∧
    (process_closed_market runners br).market_lay_pnl =
      (runners.map (fun r => (r.orders.map (spec_lay_contrib r.status)).sum)).sum ∧
    (process_closed_market runners br).market_pnl_before_commission =
      (process_closed_market runners br).market_back_pnl +
        (process_closed_market runners br).market_lay_pnl := by
  simp [process_closed_market, runners_pnl_eq]

/-- A chain of reject-ifs equals the spec's conjunctive acceptance test
(back side: the EV price must be at least the raw price). -/
theorem back_if_chain_eq (ev mn mx pr : ℚ) :
    (if ev < pr then (none : Option ℚ)
     else if mn > pr then none
     else if mx < pr then none
     else some pr) =
      if ev ≥ pr ∧ mn ≤ pr ∧ pr ≤ mx then some pr else none := by
  by_cases hc : ev ≥ pr ∧ mn ≤ pr ∧ pr ≤ mx
  · rw [if_pos hc, if_neg (not_lt.mpr hc.1), if_neg (not_lt.mpr hc.2.1),
      if_neg (not_lt.mpr hc.2.2)]
  · rw [if_neg hc]
    by_cases h1 : ev < pr
    · rw [if_pos h1]
    · by_cases h2 : mn > pr
      · rw [if_neg h1, if_pos h2]
      · by_cases h3 : mx < pr
        · rw [if_neg h1, if_neg h2, if_pos h3]
        · exact absurd ⟨not_lt.mp h1, not_lt.mp h2, not_lt.mp h3⟩ hc

/-- A chain of reject-ifs equals the spec's conjunctive acceptance test
(lay side: the EV price must be at most the raw price). -/
theorem lay_if_chain_eq (ev mn mx pr : ℚ) :
    (if ev > pr then (none : Option ℚ)
     else if mn > pr then none
     else if mx < pr then none
     else some pr) =
      if ev ≤ pr ∧ mn ≤ pr ∧ pr ≤ mx then some pr else none := by
  by_cases hc : ev ≤ pr ∧ mn ≤ pr ∧ pr ≤ mx
  · rw [if_pos hc, if_neg (not_lt.mpr hc.1), if_neg (not_lt.mpr hc.2.1),
      if_neg (not_lt.mpr hc.2.2)]
  · rw [if_neg hc]
    by_cases h1 : ev > pr
    · rw [if_pos h1]
    · by_cases h2 : mn > pr
      · rw [if_neg h1, if_pos h2]
      · by_cases h3 : mx < pr
        · rw [if_neg h1, if_neg h2, if_pos h3]
        · exact absurd ⟨not_lt.mp h1, not_lt.mp h2, not_lt.mp h3⟩ hc

/-- In `'take'` mode the back-price candidate is the best back price gated by
the acceptance test. -/
theorem get_back_price_take (cfg : StrategyConfig)
    (h : cfg.staking_strategy = "take") (p lp bp : ℚ) :
    get_back_price cfg p (some lp) (some bp) =
      if (1 / p) * (1 + cfg.margin) ≥ bp ∧
          cfg.min_back_price ≤ bp ∧ bp ≤ cfg.max_back_price
      then some bp else none := by
  simp only [get_back_price, h]
  rw [← back_if_chain_eq]
  simp

/-- In `'offer'` mode the back-price candidate is the best lay price gated by
the acceptance test. -/
theorem get_back_price_offer (cfg : StrategyConfig)
    (h : cfg.staking_strategy = "offer") (p lp bp : ℚ) :
    get_back_price cfg p (some lp) (some bp) =
      if (1 / p) * (1 + cfg.margin) ≥ lp ∧
          cfg.min_back_price ≤ lp ∧ lp ≤ cfg.max_back_price
      then some lp else none := by
  simp only [get_back_price, h]
  rw [← back_if_chain_eq]
  simp

/-- C1: with both best prices present, the back-price candidate is the raw
price (best back in `'take'` mode, best lay in `'offer'` mode) exactly when
evPrice = (1/p)*(1+margin) is at least the raw price and the raw price lies
within the configured back bounds, and is no-bet (`none`) otherwise; in
particular with the default configuration in `'take'` mode, p = 0.25 and
margin = 0.1 accept a best back of 4.0 at 4.0 and reject a best back of
4.5. -/
theorem claim1_back_price_acceptance (cfg : StrategyConfig) (p lp bp : ℚ)
    (hp0 : 0 < p) (hp1 : p ≤ 1) (hm : 0 ≤ cfg.margin)
    (hmode : cfg.staking_strategy = "take" ∨ cfg.staking_strategy = "offer") :
    (get_back_price cfg p (some lp) (some bp) =
      if (1 / p) * (1 + cfg.margin) ≥
            (if cfg.staking_strategy = "take" then bp else lp) ∧
          cfg.min_back_price ≤ (if cfg.staking_strategy = "take" then bp else lp) ∧
          (if cfg.staking_strategy = "take" then bp else lp) ≤ cfg.max_back_price
      then some (if cfg.staking_strategy = "take" then bp else lp) else none) ∧
    get_back_price exCfgTake (1 / 4) (some 5) (some 4) = some 4 ∧
    get_back_price exCfgTake (1 / 4) (some 5) (some (9 / 2)) = none := by
  refine ⟨?_, by norm_num [get_back_price, exCfgTake], by norm_num [get_back_price, exCfgTake]⟩
  rcases hmode with h | h
  · rw [h]
    simp only [if_pos rfl]
    exact get_back_price_take cfg h p lp bp
  · rw [h]
    have : ("offer" : String) ≠ "take" := by decide
    simp only [if_neg this]
    exact get_back_price_offer cfg h p lp bp

/-- Witness for C1 at the claim's own numbers: probability 0.25, margin 0.1,
`'take'` mode, best back 4.0 and best lay 5.0. -/
theorem claim1_witness :
    get_back_price exCfgTake (1 / 4) (some 5) (some 4) =
      (if (1 / (1 / 4 : ℚ)) * (1 + exCfgTake.margin) ≥ 4 ∧
          exCfgTake.min_back_price ≤ 4 ∧ (4 : ℚ) ≤ exCfgTake.max_back_price
       then some 4 else none) := by
  have h := (claim1_back_price_acceptance exCfgTake (1 / 4) 5 4
    (by norm_num) (by norm_num) (by norm_num [exCfgTake]) (Or.inl rfl)).1
  simpa [exCfgTake] using h

/-- Characterisation of the per-order replacement decision. -/
theorem replace_decision_eq_some_iff (cfg : StrategyConfig) (sel : ℕ)
    (p : ℚ) (lp bp : Option ℚ) (o : Order) (a : Action) :
    replace_decision cfg sel p lp bp o = some a ↔
      (o.status = OrderStatus.executable ∧ ∃ np,
        a = Action.replaceOrder sel o np ∧
        ((o.side = "BACK" ∧ get_back_price cfg p lp bp = some np ∧ np < o.price) ∨
         (o.side = "LAY" ∧ get_lay_price cfg p lp bp = some np ∧ o.price < np))) := by
  unfold replace_decision
  by_cases hb : o.side = "BACK" ∧ o.status = OrderStatus.executable
  · rw [if_pos hb]
    cases hg : get_back_price cfg p lp bp with
    | none => simp [hg, hb.1, hb.2, eq_comm]
    | some pp =>
      by_cases hlt : pp < o.price
      · simp only [hg, hlt, hb.1, hb.2, eq_comm]
        simp [hg, hlt, hb.1, hb.2]
        constructor
        · rintro rfl
          exact ⟨pp, rfl, rfl, hlt⟩
        · rintro ⟨np, rfl, rfl, -⟩
          rfl
      · simp [hg, hlt, hb.1, hb.2, eq_comm]
        rintro x - rfl
        exact le_of_not_lt hlt
  · rw [if_neg hb]
    by_cases hl : o.side = "LAY" ∧ o.status = OrderStatus.executable
    · rw [if_pos hl]
      cases hg : get_lay_price cfg p lp bp with
      | none => simp [hg, hl.1, hl.2, eq_comm]
      | some pp =>
        by_cases hgt : pp > o.price
        · simp [hg, hgt, hl.1, hl.2, eq_comm]
          constructor
          · rintro rfl
            exact ⟨pp, rfl, rfl, hgt⟩
          · rintro ⟨np, rfl, rfl, -⟩
            rfl
        · simp [hg, hgt, hl.1, hl.2, eq_comm]
          rintro x - rfl
          exact le_of_not_lt hgt
    · rw [if_neg hl]
      constructor
      · intro h
        cases h
      · rintro ⟨hst, np, ha, (⟨hside, h1, h2⟩ | ⟨hside, h1, h2⟩)⟩
        · exact absurd ⟨hside, hst⟩ hb
        · exact absurd ⟨hside, hst⟩ hl

/-- Anything in a placement block of `process_runner_cont` is a fresh limit
order at the candidate price. -/
theorem mem_place_block (sel : ℕ) (side : String) (stake : ℚ)
    (cand : Option ℚ) (b : Bool) (a : Action)
    (h : a ∈ (if b then ([] : List Action)
      else match cand with
        | some pp => [Action.placeLimit sel side pp stake]
        | none => [])) :
    ∃ pp, cand = some pp ∧ a = Action.placeLimit sel side pp stake := by
  cases b <;> cases cand <;> simp_all

/-- C5: in the continuous path, a replace command for a resting order is
issued exactly when the order is executable and the freshly computed
candidate price exists and is strictly more aggressive (strictly lower for a
back order, strictly higher for a lay order); it is issued at the candidate
price (the size is preserved by the replace command itself, which carries no
size).  Candidate absent, equal, or less aggressive: the order is left
unchanged. -/
theorem claim5_replace_iff (cfg : StrategyConfig) (r : Runner) (p np : ℚ)
    (o : Order) (ho : o ∈ r.orders) :
    Action.replaceOrder r.selection_id o np ∈ process_runner_cont cfg r p ↔
      (o.status = OrderStatus.executable ∧
        ((o.side = "BACK" ∧
            get_back_price cfg p (get_price r.ex.available_to_lay 0)
              (get_price r.ex.available_to_back 0) = some np ∧ np < o.price) ∨
         (o.side = "LAY" ∧
            get_lay_price cfg p (get_price r.ex.available_to_lay 0)
              (get_price r.ex.available_to_back 0) = some np ∧ o.price < np))) := by
  unfold process_runner_cont
  simp only [List.mem_append, List.mem_filterMap]
  constructor
  · rintro ((⟨o2, ho2, hf⟩ | hmem) | hmem)
    · rw [replace_decision_eq_some_iff] at hf
      obtain ⟨hst, np2, ha, hcase⟩ := hf
      rw [Action.replaceOrder.injEq] at ha
      obtain ⟨-, ho22, hnp2⟩ := ha
      subst ho22
      subst hnp2
      exact ⟨hst, hcase⟩
    · obtain ⟨pp, -, ha⟩ := mem_place_block _ _ _ _ _ _ hmem
      cases ha
    · obtain ⟨pp, -, ha⟩ := mem_place_block _ _ _ _ _ _ hmem
      cases ha
  · rintro ⟨hst, hcase⟩
    refine Or.inl (Or.inl ⟨o, ho, ?_⟩)
    rw [replace_decision_eq_some_iff]
    exact ⟨hst, np, rfl, hcase⟩

/-- A resting executable back order at 4.0 and an offer-mode candidate of 3.8
for the witness of C5. -/
def exOrderBack : Order :=
  { side := "BACK", status := OrderStatus.executable, price := 4, size_matched := 0 }

/-- A runner holding `exOrderBack`, with best back 3.7 and best lay 3.8. -/
def exRunnerWithOrder : Runner :=
  { selection_id := 103, handicap := 0, status := "ACTIVE",
    ex := { available_to_back := [37 / 10], available_to_lay := [19 / 5] },
    orders := [exOrderBack], trade_count := 1 }

/-- Witness for C5: the executable back order at 4.0 is replaced at the
offer-mode candidate 3.8. -/
theorem claim5_witness :
    Action.replaceOrder 103 exOrderBack (19 / 5) ∈
      process_runner_cont exCfgOffer exRunnerWithOrder (1 / 4) := by
  have h := (claim5_replace_iff exCfgOffer exRunnerWithOrder (1 / 4) (19 / 5)
    exOrderBack (by simp [exRunnerWithOrder]))
  refine h.mpr ⟨rfl, Or.inl ⟨rfl, ?_, by norm_num [exOrderBack]⟩⟩
  have h2 := get_back_price_offer exCfgOffer rfl (1 / 4) (19 / 5) (37 / 10)
  rw [show get_price exRunnerWithOrder.ex.available_to_lay 0 = some (19 / 5) from rfl,
    show get_price exRunnerWithOrder.ex.available_to_back 0 = some (37 / 10) from rfl, h2]
  norm_num [exCfgOffer, exCfgTake]

/-- A probability entry passes the validity test exactly when it is a
non-NaN, nonzero value. -/
theorem valid_pyfloat_iff (p : PyFloat) :
    (p.isnan || p.eqZero) = false ↔ ∃ q : ℚ, p = PyFloat.val q ∧ q ≠ 0 := by
  cases p with
  | nan => simp [PyFloat.isnan, PyFloat.eqZero]
  | val q => simp [PyFloat.isnan, PyFloat.eqZero]

/-- The validation loop completes exactly when every active-runner index
carries a non-NaN, nonzero probability. -/
theorem validate_runner_probs_none_iff (probs : List PyFloat)
    (rs : List Runner) (idx : ℕ) :
    validate_runner_probs probs rs idx = none ↔
      ∀ j, j < (active_runners rs).length →
        ∃ q : ℚ, nthProb probs (idx + j) = some (PyFloat.val q) ∧ q ≠ 0 := by
  induction rs generalizing idx with
  | nil => simp [validate_runner_probs, active_runners]
  | cons r rest ih =>
    by_cases hact : r.status = "ACTIVE"
    · have hlen : (active_runners (r :: rest)).length =
          (active_runners rest).length + 1 := by
        simp [active_runners, hact]
      rw [hlen]
      cases hp : nthProb probs idx with
      | none =>
        have hstep : validate_runner_probs probs (r :: rest) idx =
            some "IndexError" := by
          simp [validate_runner_probs, hact, hp]
        rw [hstep]
        constructor
        · intro h
          exact absurd h (by simp)
        · intro hall
          exfalso
          obtain ⟨q, hq, -⟩ := hall 0 (Nat.succ_pos _)
          rw [Nat.add_zero, hp] at hq
          cases hq
      | some p =>
        have hstep : validate_runner_probs probs (r :: rest) idx =
            if p.isnan || p.eqZero then some "NameError"
            else validate_runner_probs probs rest (idx + 1) := by
          simp [validate_runner_probs, hact, hp]
        rw [hstep]
        by_cases hval : (p.isnan || p.eqZero) = true
        · rw [if_pos hval]
          constructor
          · intro h
            exact absurd h (by simp)
          · intro hall
            exfalso
            obtain ⟨q, hq, hq0⟩ := hall 0 (Nat.succ_pos _)
            rw [Nat.add_zero, hp] at hq
            injection hq with hq
            subst hq
            rcases Bool.or_eq_true_iff.mp hval with hb | hb
            · exact absurd hb (by simp [PyFloat.isnan])
            · exact hq0 (by simpa [PyFloat.eqZero] using hb)
        · rw [if_neg hval]
          rw [ih (idx + 1)]
          constructor
          · intro hall j hj
            cases j with
            | zero =>
              obtain ⟨q, hq, hq0⟩ :=
                (valid_pyfloat_iff p).mp (Bool.not_eq_true _ ▸ hval)
              subst hq
              exact ⟨q, by rw [Nat.add_zero, hp], hq0⟩
            | succ k =>
              have : idx + (k + 1) = (idx + 1) + k := by omega
              rw [this]
              exact hall k (by omega)
          · intro hall j hj
            have : (idx + 1) + j = idx + (j + 1) := by omega
            rw [this]
            exact hall (j + 1) (by omega)
    · have hstep : validate_runner_probs probs (r :: rest) idx =
          validate_runner_probs probs rest idx := by
        simp [validate_runner_probs, hact]
      have hlen : active_runners (r :: rest) = active_runners rest := by
        simp [active_runners, hact]
      rw [hstep, hlen, ih idx]

/-- Inversion of a normally completed `process_market_book` run: the actions
come from the main loop, the vector length matched, and validation
succeeded. -/
theorem process_market_book_acted (cfg : StrategyConfig)
    (mb : MarketBookState) (probs : List PyFloat) (acts : List Action)
    (hres : process_market_book cfg mb probs = ProcessResult.acted acts) :
    acts = strategy_loop cfg probs mb.runners 0 ∧
    probs.length = mb.number_of_active_runners ∧
    validate_runner_probs probs mb.runners 0 = none := by
  unfold process_market_book at hres
  by_cases hlen : probs.length ≠ mb.number_of_active_runners
  · rw [if_pos hlen] at hres
    cases hres
  · rw [if_neg hlen] at hres
    cases hv : validate_runner_probs probs mb.runners 0 with
    | some msg =>
      rw [hv] at hres
      cases hres
    | none =>
      rw [hv] at hres
      injection hres with h2
      exact ⟨h2.symm, not_ne_iff.mp hlen, rfl⟩

/-- C7: when the probability vector length matches the declared active-runner
count (itself consistent with the snapshot), a NaN or zero probability for
any active runner makes `process_market_book` abort the whole update with an
exception, before any candidate price is computed; conversely, any update
that proceeds to the pricing loop does so only with every active runner's
probability a non-NaN, nonzero value, so the divisions 1/runnerProbability in
the pricing functions never see a zero divisor. -/
theorem claim7_validation_guards_division (cfg : StrategyConfig)
    (mb : MarketBookState) (probs : List PyFloat)
    (hcount : mb.number_of_active_runners = (active_runners mb.runners).length)
    (hlen : probs.length = mb.number_of_active_runners) :
    ((∃ i, i < (active_runners mb.runners).length ∧ ∃ p, nthProb probs i = some p ∧
        (p.isnan = true ∨ p.eqZero = true)) →
      ∃ msg, process_market_book cfg mb probs = ProcessResult.error msg) ∧
    (∀ acts, process_market_book cfg mb probs = ProcessResult.acted acts →
      ∀ i, i < (active_runners mb.runners).length →
        ∃ q : ℚ, nthProb probs i = some (PyFloat.val q) ∧ q ≠ 0) := by
  constructor
  · rintro ⟨i, hi, p, hp, hbad⟩
    unfold process_market_book
    rw [if_neg (not_ne_iff.mpr hlen)]
    cases hv : validate_runner_probs probs mb.runners 0 with
    | some msg => exact ⟨msg, rfl⟩
    | none =>
      exfalso
      have hall := (validate_runner_probs_none_iff probs mb.runners 0).mp hv
      obtain ⟨q, hq, hq0⟩ := hall i hi
      rw [Nat.zero_add, hp] at hq
      injection hq with hq
      subst hq
      rcases hbad with hb | hb
      · exact absurd hb (by simp [PyFloat.isnan])
      · exact hq0 (by simpa [PyFloat.eqZero] using hb)
  · intro acts hres i hi
    obtain ⟨-, -, hv⟩ := process_market_book_acted cfg mb probs acts hres
    have hall := (validate_runner_probs_none_iff probs mb.runners 0).mp hv
    obtain ⟨q, hq, hq0⟩ := hall i hi
    rw [Nat.zero_add] at hq
    exact ⟨q, hq, hq0⟩

/-- Witness for C7 at the concrete two-runner market with a NaN first
probability. -/
theorem claim7_witness :
    ((∃ i, i < (active_runners exMarketBook.runners).length ∧
        ∃ p, nthProb [PyFloat.nan, PyFloat.val (1 / 2)] i = some p ∧
          (p.isnan = true ∨ p.eqZero = true)) →
      ∃ msg, process_market_book exCfgBsp exMarketBook
        [PyFloat.nan, PyFloat.val (1 / 2)] = ProcessResult.error msg) ∧
    (∀ acts, process_market_book exCfgBsp exMarketBook
        [PyFloat.nan, PyFloat.val (1 / 2)] = ProcessResult.acted acts →
      ∀ i, i < (active_runners exMarketBook.runners).length →
        ∃ q : ℚ, nthProb [PyFloat.nan, PyFloat.val (1 / 2)] i =
          some (PyFloat.val q) ∧ q ≠ 0) :=
  claim7_validation_guards_division exCfgBsp exMarketBook
    [PyFloat.nan, PyFloat.val (1 / 2)] rfl rfl

/-- In `'bsp'` mode the main loop degenerates to the starting-price handling
of the first active runner alone. -/
theorem strategy_loop_bsp (cfg : StrategyConfig)
    (hmode : cfg.staking_strategy = "bsp") (probs : List PyFloat)
    (rs : List Runner) (idx : ℕ) :
    strategy_loop cfg probs rs idx =
      match active_runners rs with
      | [] => []
      | r :: _ =>
        place_bsp_bets cfg r (get_price r.ex.available_to_back 0)
          (get_price r.ex.available_to_lay 0) (probAt probs idx) := by
  induction rs with
  | nil => simp [strategy_loop, active_runners]
  | cons r rest ih =>
    by_cases hact : r.status = "ACTIVE"
    · have h1 : active_runners (r :: rest) = r :: active_runners rest := by
        simp [active_runners, hact]
      rw [h1]
      simp [strategy_loop, hact, hmode]
    · have h1 : active_runners (r :: rest) = active_runners rest := by
        simp [active_runners, hact]
      rw [h1, ← ih]
      simp [strategy_loop, hact]

/-- C9: in `'bsp'` staking mode, `process_market_book` returns from inside
the runner loop after handling only the first active runner: on a normally
completed update the issued actions are exactly the starting-price placements
for the first active runner (and none at all when no runner is active); later
active runners are never considered. -/
theorem claim9_bsp_first_active_only (cfg : StrategyConfig)
    (mb : MarketBookState) (probs : List PyFloat) (acts : List Action)
    (hmode : cfg.staking_strategy = "bsp")
    (hres : process_market_book cfg mb probs = ProcessResult.acted acts) :
    (active_runners mb.runners = [] → acts = []) ∧
    (∀ r rest, active_runners mb.runners = r :: rest →
      acts = place_bsp_bets cfg r (get_price r.ex.available_to_back 0)
        (get_price r.ex.available_to_lay 0) (probAt probs 0)) := by
  obtain ⟨hacts, -, -⟩ := process_market_book_acted cfg mb probs acts hres
  rw [strategy_loop_bsp cfg hmode probs mb.runners 0] at hacts
  constructor
  · intro hnil
    rw [hnil] at hacts
    exact hacts
  · intro r rest hcons
    rw [hcons] at hacts
    exact hacts

/-- Witness for C9: the concrete bsp run places orders only for the first
active runner (selection 101). -/
theorem claim9_witness :
    (active_runners exMarketBook.runners = [] →
      (strategy_loop exCfgBsp [PyFloat.val (1 / 2), PyFloat.val (1 / 2)]
        exMarketBook.runners 0) = []) ∧
    (∀ r rest, active_runners exMarketBook.runners = r :: rest →
      (strategy_loop exCfgBsp [PyFloat.val (1 / 2), PyFloat.val (1 / 2)]
          exMarketBook.runners 0) =
        place_bsp_bets exCfgBsp r (get_price r.ex.available_to_back 0)
          (get_price r.ex.available_to_lay 0)
          (probAt [PyFloat.val (1 / 2), PyFloat.val (1 / 2)] 0)) :=
  claim9_bsp_first_active_only exCfgBsp exMarketBook
    [PyFloat.val (1 / 2), PyFloat.val (1 / 2)]
    (strategy_loop exCfgBsp [PyFloat.val (1 / 2), PyFloat.val (1 / 2)]
      exMarketBook.runners 0) rfl
    (by
      have hval : validate_runner_probs
          [PyFloat.val (1 / 2), PyFloat.val (1 / 2)] exMarketBook.runners 0 =
          none := by
        norm_num [validate_runner_probs, exMarketBook, exRunner, exRunnerZero,
          nthProb, PyFloat.isnan, PyFloat.eqZero]
      rw [process_market_book, if_neg (by norm_num [exMarketBook]), hval])

/-- In `'take'` mode the lay-price candidate is the best lay price gated by
the acceptance test. -/
theorem get_lay_price_take (cfg : StrategyConfig)
    (h : cfg.staking_strategy = "take") (p lp bp : ℚ) :
    get_lay_price cfg p (some lp) (some bp) =
      if (1 / p) / (1 + cfg.margin) ≤ lp ∧
          cfg.min_lay_price ≤ lp ∧ lp ≤ cfg.max_lay_price
      then some lp else none := by
  simp only [get_lay_price, h]
  rw [← lay_if_chain_eq]
  simp

/-- In `'offer'` mode the lay-price candidate is the best back price gated by
the acceptance test. -/
theorem get_lay_price_offer (cfg : StrategyConfig)
    (h : cfg.staking_strategy = "offer") (p lp bp : ℚ) :
    get_lay_price cfg p (some lp) (some bp) =
      if (1 / p) / (1 + cfg.margin) ≤ bp ∧
          cfg.min_lay_price ≤ bp ∧ bp ≤ cfg.max_lay_price
      then some bp else none := by
  simp only [get_lay_price, h]
  rw [← lay_if_chain_eq]
  simp

/-- Any accepted back-price candidate lies within the configured back
bounds. -/
theorem get_back_price_bounds (cfg : StrategyConfig) (p : ℚ)
    (lp bp : Option ℚ) (pr : ℚ)
    (h : get_back_price cfg p lp bp = some pr) :
    cfg.min_back_price ≤ pr ∧ pr ≤ cfg.max_back_price := by
  by_cases ht : cfg.staking_strategy = "take"
  · cases lp with
    | none => simp [get_back_price] at h
    | some l =>
      cases bp with
      | none => simp [get_back_price] at h
      | some b =>
        rw [get_back_price_take cfg ht p l b] at h
        split at h
        · next hc =>
            injection h with h
            subst h
            exact ⟨hc.2.1, hc.2.2⟩
        · cases h
  · by_cases ho : cfg.staking_strategy = "offer"
    · cases lp with
      | none => simp [get_back_price] at h
      | some l =>
        cases bp with
        | none => simp [get_back_price] at h
        | some b =>
          rw [get_back_price_offer cfg ho p l b] at h
          split at h
          · next hc =>
              injection h with h
              subst h
              exact ⟨hc.2.1, hc.2.2⟩
          · cases h
    · have hnone : get_back_price cfg p lp bp = none := by
        unfold get_back_price
        cases lp <;> cases bp <;> simp [ht, ho]
      rw [hnone] at h
      cases h

/-- Any accepted lay-price candidate lies within the configured lay
bounds. -/
theorem get_lay_price_bounds (cfg : StrategyConfig) (p : ℚ)
    (lp bp : Option ℚ) (pr : ℚ)
    (h : get_lay_price cfg p lp bp = some pr) :
    cfg.min_lay_price ≤ pr ∧ pr ≤ cfg.max_lay_price := by
  by_cases ht : cfg.staking_strategy = "take"
  · cases lp with
    | none => simp [get_lay_price] at h
    | some l =>
      cases bp with
      | none => simp [get_lay_price] at h
      | some b =>
        rw [get_lay_price_take cfg ht p l b] at h
        split at h
        · next hc =>
            injection h with h
            subst h
            exact ⟨hc.2.1, hc.2.2⟩
        · cases h
  · by_cases ho : cfg.staking_strategy = "offer"
    · cases lp with
      | none => simp [get_lay_price] at h
      | some l =>
        cases bp with
        | none => simp [get_lay_price] at h
        | some b =>
          rw [get_lay_price_offer cfg ho p l b] at h
          split at h
          · next hc =>
              injection h with h
              subst h
              exact ⟨hc.2.1, hc.2.2⟩
          · cases h
    · have hnone : get_lay_price cfg p lp bp = none := by
        unfold get_lay_price
        cases lp <;> cases bp <;> simp [ht, ho]
      rw [hnone] at h
      cases h

/-- Starting-price placements are limit-on-close orders, unconstrained by the
continuous-path bounds invariant. -/
theorem place_bsp_bets_within_bounds (cfg : StrategyConfig) (r : Runner)
    (bp lp : Option ℚ) (p : ℚ) (a : Action)
    (ha : a ∈ place_bsp_bets cfg r bp lp p) :
    action_within_bounds cfg a := by
  unfold place_bsp_bets at ha
  by_cases h0 : r.trade_count = 0
  · rw [if_pos h0] at ha
    cases ha
  · rw [if_neg h0] at ha
    cases bp with
    | none => simp at ha
    | some b =>
      cases lp with
      | none => simp at ha
      | some l =>
        simp only [List.mem_append] at ha
        rcases ha with ha | ha
        all_goals
          split at ha
          · rw [List.mem_singleton] at ha
            subst ha
            exact trivial
          · cases ha

/-- Every action issued by the continuous per-runner body respects the
per-side bounds. -/
theorem process_runner_cont_bounds (cfg : StrategyConfig) (r : Runner)
    (p : ℚ) (a : Action) (ha : a ∈ process_runner_cont cfg r p) :
    action_within_bounds cfg a := by
  unfold process_runner_cont at ha
  simp only [List.mem_append, List.mem_filterMap] at ha
  rcases ha with (⟨o, ho, hf⟩ | hmem) | hmem
  · rw [replace_decision_eq_some_iff] at hf
    obtain ⟨hst, np, rfl, hcase⟩ := hf
    rcases hcase with ⟨hside, hg, -⟩ | ⟨hside, hg, -⟩
    · exact ⟨fun _ => get_back_price_bounds cfg p _ _ _ hg,
        fun hl => absurd (hside.symm.trans hl) (by decide)⟩
    · exact ⟨fun hb => absurd (hside.symm.trans hb) (by decide),
        fun _ => get_lay_price_bounds cfg p _ _ _ hg⟩
  · obtain ⟨pp, hg, rfl⟩ := mem_place_block _ _ _ _ _ _ hmem
    exact ⟨fun _ => get_back_price_bounds cfg p _ _ _ hg,
      fun hl => absurd hl (by decide)⟩
  · obtain ⟨pp, hg, rfl⟩ := mem_place_block _ _ _ _ _ _ hmem
    exact ⟨fun hb => absurd hb (by decide),
      fun _ => get_lay_price_bounds cfg p _ _ _ hg⟩

/-- Every action issued by the main runner loop respects the per-side
bounds. -/
theorem strategy_loop_bounds (cfg : StrategyConfig) (probs : List PyFloat)
    (rs : List Runner) :
    ∀ idx a, a ∈ strategy_loop cfg probs rs idx →
      action_within_bounds cfg a := by
  induction rs with
  | nil =>
    intro idx a ha
    simp [strategy_loop] at ha
  | cons r rest ih =>
    intro idx a ha
    by_cases hact : r.status = "ACTIVE"
    · by_cases hbsp : cfg.staking_strategy = "bsp"
      · have hstep : strategy_loop cfg probs (r :: rest) idx =
            place_bsp_bets cfg r (get_price r.ex.available_to_back 0)
              (get_price r.ex.available_to_lay 0) (probAt probs idx) := by
          simp [strategy_loop, hact, hbsp]
        rw [hstep] at ha
        exact place_bsp_bets_within_bounds cfg r _ _ _ a ha
      · have hstep : strategy_loop cfg probs (r :: rest) idx =
            process_runner_cont cfg r (probAt probs idx) ++
              strategy_loop cfg probs rest (idx + 1) := by
          simp [strategy_loop, hact, hbsp]
        rw [hstep] at ha
        rcases List.mem_append.mp ha with h | h
        · exact process_runner_cont_bounds cfg r _ a h
        · exact ih (idx + 1) a h
    · have hstep : strategy_loop cfg probs (r :: rest) idx =
          strategy_loop cfg probs rest idx := by
        simp [strategy_loop, hact]
      rw [hstep] at ha
      exact ih idx a ha

/-- C10: in the continuous (take/offer) path, every limit order the strategy
places and every replacement price it submits lies within the configured
per-side bounds (minBackPrice-maxBackPrice for back orders,
minLayPrice-maxLayPrice for lay orders), because the candidate-price
functions return no-bet for any price outside those bounds. -/
theorem claim10_continuous_bounds (cfg : StrategyConfig)
    (mb : MarketBookState) (probs : List PyFloat) (acts : List Action)
    (hmode : cfg.staking_strategy = "take" ∨ cfg.staking_strategy = "offer")
    (hres : process_market_book cfg mb probs = ProcessResult.acted acts) :
    ∀ a ∈ acts, action_within_bounds cfg a := by
  intro a ha
  obtain ⟨hacts, -, -⟩ := process_market_book_acted cfg mb probs acts hres
  exact strategy_loop_bounds cfg probs mb.runners 0 a (hacts ▸ ha)

/-- Witness for C10: the back order placed for the first runner of the
concrete take-mode run respects the configured back bounds. -/
theorem claim10_witness :
    action_within_bounds exCfgTake (Action.placeLimit 101 "BACK" 2 10) := by
  have hval : validate_runner_probs
      [PyFloat.val (1 / 2), PyFloat.val (1 / 2)] exMarketBook.runners 0 =
      none := by
    norm_num [validate_runner_probs, exMarketBook, exRunner, exRunnerZero,
      nthProb, PyFloat.isnan, PyFloat.eqZero]
  have hres : process_market_book exCfgTake exMarketBook
      [PyFloat.val (1 / 2), PyFloat.val (1 / 2)] =
      ProcessResult.acted (strategy_loop exCfgTake
        [PyFloat.val (1 / 2), PyFloat.val (1 / 2)] exMarketBook.runners 0) := by
    rw [process_market_book, if_neg (by norm_num [exMarketBook]), hval]
  have hb1 : get_back_price exCfgTake (1 / 2)
      (get_price exRunner.ex.available_to_lay 0)
      (get_price exRunner.ex.available_to_back 0) = some 2 := by
    rw [show get_price exRunner.ex.available_to_lay 0 = some (21 / 10) from rfl,
      show get_price exRunner.ex.available_to_back 0 = some 2 from rfl,
      get_back_price_take exCfgTake rfl]
    norm_num [exCfgTake]
  have hl1 : get_lay_price exCfgTake (1 / 2)
      (get_price exRunner.ex.available_to_lay 0)
      (get_price exRunner.ex.available_to_back 0) = some (21 / 10) := by
    rw [show get_price exRunner.ex.available_to_lay 0 = some (21 / 10) from rfl,
      show get_price exRunner.ex.available_to_back 0 = some 2 from rfl,
      get_lay_price_take exCfgTake rfl]
    norm_num [exCfgTake]
  have hb2 : get_back_price exCfgTake (1 / 2)
      (get_price exRunnerZero.ex.available_to_lay 0)
      (get_price exRunnerZero.ex.available_to_back 0) = some 2 := by
    rw [show get_price exRunnerZero.ex.available_to_lay 0 = some (21 / 10) from rfl,
      show get_price exRunnerZero.ex.available_to_back 0 = some 2 from rfl,
      get_back_price_take exCfgTake rfl]
    norm_num [exCfgTake]
  have hl2 : get_lay_price exCfgTake (1 / 2)
      (get_price exRunnerZero.ex.available_to_lay 0)
      (get_price exRunnerZero.ex.available_to_back 0) = some (21 / 10) := by
    rw [show get_price exRunnerZero.ex.available_to_lay 0 = some (21 / 10) from rfl,
      show get_price exRunnerZero.ex.available_to_back 0 = some 2 from rfl,
      get_lay_price_take exCfgTake rfl]
    norm_num [exCfgTake]
  have hcont1 : process_runner_cont exCfgTake exRunner (1 / 2) =
      [Action.placeLimit 101 "BACK" 2 10,
       Action.placeLimit 101 "LAY" (21 / 10) 10] := by
    simp only [process_runner_cont, hb1, hl1]
    rfl
  have hcont2 : process_runner_cont exCfgTake exRunnerZero (1 / 2) =
      [Action.placeLimit 102 "BACK" 2 10,
       Action.placeLimit 102 "LAY" (21 / 10) 10] := by
    simp only [process_runner_cont, hb2, hl2]
    rfl
  have hloop : strategy_loop exCfgTake [PyFloat.val (1 / 2), PyFloat.val (1 / 2)]
      exMarketBook.runners 0 =
      process_runner_cont exCfgTake exRunner (1 / 2) ++
        (process_runner_cont exCfgTake exRunnerZero (1 / 2) ++ []) := rfl
  have hmem : Action.placeLimit 101 "BACK" 2 10 ∈
      strategy_loop exCfgTake [PyFloat.val (1 / 2), PyFloat.val (1 / 2)]
        exMarketBook.runners 0 := by
    rw [hloop, hcont1, hcont2]
    simp
  exact claim10_continuous_bounds exCfgTake exMarketBook
    [PyFloat.val (1 / 2), PyFloat.val (1 / 2)] _ (Or.inl rfl) hres
    (Action.placeLimit 101 "BACK" 2 10) hmem

end FlumineExample
